import Mathlib

/-!
Verification of the hyperlink per-document scanner (`src/html.rs`).

Strings that the Rust code manipulates by byte index are modelled as
`List Char`; every index the code computes (`rfind`, `find`, slicing at a
separator) falls on a character boundary, so the character-list view is
faithful.  `String` wrappers are provided for concrete examples.
-/

namespace Hyperlink

/-- True iff the last character of the list is a slash. -/
def lastIsSlash : List Char → Bool
  | [] => false
  | [c] => decide (c = '/')
  | _ :: rest => lastIsSlash rest

/-- True iff the first character of the list is a slash
(models Rust `str::starts_with('/')`). -/
def firstIsSlash : List Char → Bool
  | [] => false
  | c :: _ => decide (c = '/')

/-- True iff the list contains two adjacent slashes (an occurrence of
the substring containing two slashes). -/
def hasDS : List Char → Bool
  | a :: b :: rest => (decide (a = '/') && decide (b = '/')) || hasDS (b :: rest)
  | _ => false

/-- True iff the list starts with the three characters dot, dot, slash. -/
def startsWithDDS : List Char → Bool
  | a :: b :: c :: _ => decide (a = '.') && decide (b = '.') && decide (c = '/')
  | _ => false

/-- Models `base.truncate(base.rfind('/').unwrap_or(0))` from
`push_and_canonicalize`: keep the characters strictly before the last
slash, or nothing when there is no slash. -/
def truncToLastSlash (s : List Char) : List Char :=
  ((s.reverse.dropWhile (fun c => !decide (c = '/'))).drop 1).reverse

/-- Models Rust `str::split('/')` (for the character-list view):
splits on every slash, keeping empty segments. -/
def splitSlash : List Char → List (List Char)
  | [] => [[]]
  | c :: rest =>
    if c = '/' then [] :: splitSlash rest
    else
      match splitSlash rest with
      | [] => [[c]]
      | s :: ss => (c :: s) :: ss

/-- The segment loop of `push_and_canonicalize` (html.rs lines 35-48):
empty and dot segments are skipped, a dot-dot segment pops the last
segment of the base, and any other segment is appended with a slash
separator unless the base is empty. -/
def pushComponents : List Char → List (List Char) → List Char
  | base, [] => base
  | base, c :: cs =>
    pushComponents
      (if c = [] ∨ c = ['.'] then base
       else if c = ['.', '.'] then truncToLastSlash base
       else if base = [] then c
       else base ++ '/' :: c) cs

/-- `push_and_canonicalize` (html.rs lines 23-49).  An absolute path
clears the base; an empty path drops a trailing slash of the base and
returns; otherwise the base is truncated to its containing directory and
the path's slash-separated segments are folded in. -/
def push_and_canonicalize (base path : List Char) : List Char :=
  if firstIsSlash path then pushComponents [] (splitSlash path)
  else if path = [] then (if lastIsSlash base then base.dropLast else base)
  else pushComponents (truncToLastSlash base) (splitSlash path)

/-- String-level wrapper of `push_and_canonicalize`. -/
def canonicalize (base path : String) : String :=
  String.mk (push_and_canonicalize base.data path.data)

/-- The invariant maintained on the mutable base during the segment loop
of `push_and_canonicalize`. -/
def CanonInv (s : List Char) : Prop :=
  hasDS s = false ∧ startsWithDDS s = false ∧ s ≠ ['.', '.'] ∧ lastIsSlash s = false

/-- A segment drawn from the set named by the specification: empty, dot,
dot-dot, or a nonempty alphanumeric string. -/
def goodSeg (c : List Char) : Bool :=
  decide (c = []) || decide (c = ['.']) || decide (c = ['.', '.'])
    || (decide (c ≠ []) && c.all Char.isAlphanum)

/-!
## Document identity (`Document::new`, html.rs lines 146-177)

File-system paths are modelled as their lists of components, the view the
Rust code manipulates through `Path::strip_prefix`, `Path::ends_with` and
`Path::parent`.  `Document::new` panics (through `expect`) when the file
path is not rooted under the base path; the panic is modelled by the
`panicked` outcome, carrying the panic message.
-/

/-- A document: its file path (components), its derived href and whether
it is an index document. -/
structure Document where
  path : List String
  href : String
  is_index_html : Bool
deriving DecidableEq

/-- Outcome of `Document::new`: the Rust constructor either returns a
`Document` or panics via `expect` (it has no error return channel). -/
inductive NewResult where
  | ok : Document → NewResult
  | panicked : String → NewResult
deriving DecidableEq

/-- Models `Path::strip_prefix` on component lists. -/
def stripPrefixComponents : List String → List String → Option (List String)
  | [], p => some p
  | _ :: _, [] => none
  | b :: bs, q :: qs => if b = q then stripPrefixComponents bs qs else none

/-- Models `href_path.ends_with("index.html") || href_path.ends_with("index.htm")`:
`Path::ends_with` with a single-component argument tests the final component. -/
def isIndexComp (rel : List String) : Bool :=
  decide (rel.getLast? = some "index.html") || decide (rel.getLast? = some "index.htm")

/-- Models `href_path.parent().unwrap_or(href_path)`: drop the final
component, or keep the (empty) path when there is no parent. -/
def parentOr (rel : List String) : List String :=
  match rel with
  | [] => []
  | _ :: _ => rel.dropLast

/-- Models `Path::to_str` display of a relative path on a platform whose
separator is a slash (the windows branch of the code rewrites
backslashes to slashes, yielding the same string). -/
def joinComponents : List String → String
  | [] => ""
  | [x] => x
  | x :: xs => x ++ "/" ++ joinComponents xs

/-- `Document::new` (html.rs lines 146-177).  `strip_prefix` failure is
the `expect` panic with the source's message. -/
def Document.new (base_path path : List String) : NewResult :=
  match stripPrefixComponents base_path path with
  | none => NewResult.panicked "base_path is not a base of path"
  | some rel =>
    NewResult.ok
      { path := path
        href := joinComponents (if isIndexComp rel then parentOr rel else rel)
        is_index_html := isIndexComp rel }

/-!
## Href resolution (`Document::join`, html.rs lines 179-205)
-/

/-- `Document::join` (html.rs lines 179-205): split the reference at the
first question mark or hash, resolve the path portion against the
document's href (with a trailing slash first when it is an index
document), then append the fragment when `preserve_anchor` is set and
the fragment is longer than the bare hash. -/
def Document.join (doc : Document) (preserve_anchor : Bool) (rel_href : List Char) :
    List Char :=
  let qs_start := rel_href.findIdx (fun c => decide (c = '?') || decide (c = '#'))
  let anchor_start := rel_href.findIdx (fun c => decide (c = '#'))
  let base := doc.href.data ++ (if doc.is_index_html then ['/'] else [])
  let resolved := push_and_canonicalize base (rel_href.take qs_start)
  if preserve_anchor then
    let anchor := rel_href.drop anchor_start
    if anchor.length > 1 then resolved ++ anchor else resolved
  else resolved

/-- String-level wrapper of `Document.join`. -/
def Document.joinStr (doc : Document) (preserve_anchor : Bool) (rel : String) : String :=
  String.mk (doc.join preserve_anchor rel.data)

/-- The index document used by the specification's examples. -/
def troubleshootingIndexDoc : Document :=
  { path := ["public", "platforms", "python", "troubleshooting", "index.html"]
    href := "platforms/python/troubleshooting"
    is_index_html := true }

/-!
## The markup link scanner (`links_from_read`, html.rs lines 227-354)

The html5ever tokenizer is an external crate: the scanner consumes its
token events, so the event stream is the input of the model.  The
paragraph walker lives in `crate::paragraph`, which is not part of the
source under verification; it is modelled from the specification.
-/

/-- Modelled from the spec: `crate::paragraph`'s ParagraphWalker
capability (`new` / `update` / `finish_paragraph`) is not under the
sources being verified.  Section 4.3 of the specification describes it as
an accumulator of text fragments, concatenated in arrival order, whose
`finish_paragraph` returns the fingerprint of the accumulation and resets
the state; the verbatim-text strategy it names is used here, so a
fingerprint is the accumulated text itself. -/
structure ParagraphWalker where
  acc : List Char
deriving DecidableEq

/-- Modelled from the spec: a fresh accumulator. -/
def ParagraphWalker.new : ParagraphWalker := ⟨[]⟩

/-- Modelled from the spec: feed one chunk of character data. -/
def ParagraphWalker.update (w : ParagraphWalker) (s : String) : ParagraphWalker :=
  ⟨w.acc ++ s.data⟩

/-- Modelled from the spec: close the paragraph, returning its
fingerprint and the reset walker. -/
def ParagraphWalker.finish_paragraph (w : ParagraphWalker) : String × ParagraphWalker :=
  (String.mk w.acc, ⟨[]⟩)

/-- `UsedLink` (html.rs lines 112-117). -/
structure UsedLink where
  href : String
  path : List String
  paragraph : Option String
deriving DecidableEq

/-- `DefinedLink` (html.rs lines 119-122). -/
structure DefinedLink where
  href : String
deriving DecidableEq

/-- `Link` (html.rs lines 124-128). -/
inductive Link where
  | Uses : UsedLink → Link
  | Defines : DefinedLink → Link
deriving DecidableEq

/-- A token event delivered by the external html5ever tokenizer: a start
tag with its attribute list, an end tag, character data, or any other
token the scanner ignores. -/
inductive HtmlToken where
  | startTag : String → List (String × String) → HtmlToken
  | endTag : String → HtmlToken
  | chars : String → HtmlToken
  | other : HtmlToken

/-- `BAD_SCHEMAS` (html.rs lines 16-18). -/
def BAD_SCHEMAS : List String :=
  ["http://", "https://", "irc://", "ftp://", "mailto:", "data:"]

/-- `PARAGRAPH_TAGS` (html.rs line 20). -/
def PARAGRAPH_TAGS : List String := ["p", "li", "dt", "dd"]

/-- Models Rust `str::starts_with` on a string argument. -/
def startsWithStr (s pre : String) : Bool :=
  pre.data.isPrefixOf s.data

/-- The `extract_used_link!` macro body (html.rs lines 262-278): for
every attribute with the given name whose value starts with no excluded
scheme, emit a UsedLink resolved through `join` with the anchor-checking
flag, carrying the document path and no paragraph yet. -/
def extract_used_link (doc : Document) (check_anchors : Bool) (attr_name : String)
    (attrs : List (String × String)) : List Link :=
  attrs.filterMap (fun a =>
    if decide (a.1 = attr_name) && BAD_SCHEMAS.all (fun schema => !startsWithStr a.2 schema)
    then some (Link.Uses
      { href := doc.joinStr check_anchors a.2, path := doc.path, paragraph := none })
    else none)

/-- The `extract_anchor_def!` macro body (html.rs lines 280-300): when
anchor checking is on, every attribute with the given name yields a
DefinedLink whose href is `join` of a hash followed by the value. -/
def extract_anchor_def (doc : Document) (check_anchors : Bool) (attr_name : String)
    (attrs : List (String × String)) : List Link :=
  if check_anchors then
    attrs.filterMap (fun a =>
      if a.1 = attr_name then
        some (Link.Defines { href := doc.joinStr check_anchors ("#" ++ a.2) })
      else none)
  else []

/-- The tag dispatch of the start-tag arm (html.rs lines 302-316): the
per-tag link attribute extraction, the anchor-name extraction for `a`
tags, then the `id` extraction for every tag. -/
def tagLinks (doc : Document) (check_anchors : Bool) (name : String)
    (attrs : List (String × String)) : List Link :=
  (if name = "a" then
      extract_used_link doc check_anchors "href" attrs
        ++ extract_anchor_def doc check_anchors "name" attrs
    else if name = "img" then extract_used_link doc check_anchors "src" attrs
    else if name = "link" then extract_used_link doc check_anchors "href" attrs
    else if name = "script" then extract_used_link doc check_anchors "src" attrs
    else if name = "iframe" then extract_used_link doc check_anchors "src" attrs
    else if name = "area" then extract_used_link doc check_anchors "href" attrs
    else if name = "object" then extract_used_link doc check_anchors "data" attrs
    else [])
    ++ extract_anchor_def doc check_anchors "id" attrs

/-- The mutable state of the sink closure in `links_from_read`
(html.rs lines 248-250): the output list, the index marking the start of
the current paragraph's links, the in-paragraph flag, and the walker. -/
structure ScanState where
  sink : List Link
  last_paragraph_i : Nat
  in_paragraph : Bool
  walker : ParagraphWalker
deriving DecidableEq

/-- The paragraph back-fill (html.rs lines 322-329): a fingerprint is
written onto a UsedLink's paragraph field; a DefinedLink is untouched. -/
def backfill (p : String) : Link → Link
  | Link.Uses u => Link.Uses { u with paragraph := some p }
  | Link.Defines d => Link.Defines d

/-- One step of the sink closure (html.rs lines 252-343). -/
def processToken (doc : Document) (check_anchors get_paragraphs : Bool)
    (st : ScanState) : HtmlToken → ScanState
  | HtmlToken.startTag name attrs =>
    let st1 :=
      if PARAGRAPH_TAGS.contains name then
        { st with
          in_paragraph := true
          last_paragraph_i := st.sink.length
          walker := st.walker.finish_paragraph.2 }
      else st
    { st1 with sink := st1.sink ++ tagLinks doc check_anchors name attrs }
  | HtmlToken.endTag name =>
    if get_paragraphs && PARAGRAPH_TAGS.contains name then
      let fp := st.walker.finish_paragraph.1
      let sink2 :=
        if st.in_paragraph then
          st.sink.take st.last_paragraph_i
            ++ (st.sink.drop st.last_paragraph_i).map (backfill fp)
        else st.sink
      { sink := sink2
        last_paragraph_i := sink2.length
        in_paragraph := false
        walker := st.walker.finish_paragraph.2 }
    else st
  | HtmlToken.chars s =>
    if get_paragraphs && st.in_paragraph then { st with walker := st.walker.update s }
    else st
  | HtmlToken.other => st

/-- The whole token loop of `links_from_read`: fold the sink closure over
the token stream, starting from the caller's sink, `last_paragraph_i`
at the sink's current length, no open paragraph and a fresh walker. -/
def scanTokens (doc : Document) (check_anchors get_paragraphs : Bool)
    (init_sink : List Link) (tokens : List HtmlToken) : List Link :=
  (tokens.foldl (processToken doc check_anchors get_paragraphs)
    { sink := init_sink
      last_paragraph_i := init_sink.length
      in_paragraph := false
      walker := ParagraphWalker.new }).sink

/-- UTF-8 validity of a byte stream, per RFC 3629 (the check performed by
`bytes.try_reinterpret()` in html.rs lines 243-246). -/
def validUtf8 : List Nat → Bool
  | [] => true
  | b :: rest =>
    if b < 0x80 then validUtf8 rest
    else if 0xC2 ≤ b ∧ b ≤ 0xDF then
      match rest with
      | c :: r => (0x80 ≤ c ∧ c ≤ 0xBF : Bool) && validUtf8 r
      | [] => false
    else if b = 0xE0 then
      match rest with
      | c :: d :: r =>
        (0xA0 ≤ c ∧ c ≤ 0xBF : Bool) && (0x80 ≤ d ∧ d ≤ 0xBF : Bool) && validUtf8 r
      | _ => false
    else if b = 0xED then
      match rest with
      | c :: d :: r =>
        (0x80 ≤ c ∧ c ≤ 0x9F : Bool) && (0x80 ≤ d ∧ d ≤ 0xBF : Bool) && validUtf8 r
      | _ => false
    else if 0xE1 ≤ b ∧ b ≤ 0xEF then
      match rest with
      | c :: d :: r =>
        (0x80 ≤ c ∧ c ≤ 0xBF : Bool) && (0x80 ≤ d ∧ d ≤ 0xBF : Bool) && validUtf8 r
      | _ => false
    else if b = 0xF0 then
      match rest with
      | c :: d :: e :: r =>
        (0x90 ≤ c ∧ c ≤ 0xBF : Bool) && (0x80 ≤ d ∧ d ≤ 0xBF : Bool)
          && (0x80 ≤ e ∧ e ≤ 0xBF : Bool) && validUtf8 r
      | _ => false
    else if 0xF1 ≤ b ∧ b ≤ 0xF3 then
      match rest with
      | c :: d :: e :: r =>
        (0x80 ≤ c ∧ c ≤ 0xBF : Bool) && (0x80 ≤ d ∧ d ≤ 0xBF : Bool)
          && (0x80 ≤ e ∧ e ≤ 0xBF : Bool) && validUtf8 r
      | _ => false
    else if b = 0xF4 then
      match rest with
      | c :: d :: e :: r =>
        (0x80 ≤ c ∧ c ≤ 0x8F : Bool) && (0x80 ≤ d ∧ d ≤ 0xBF : Bool)
          && (0x80 ≤ e ∧ e ≤ 0xBF : Bool) && validUtf8 r
      | _ => false
    else false

/-- `links_from_read` (html.rs lines 227-354): the document bytes are
checked for UTF-8 validity before any token is processed; on failure the
call returns the error message from html.rs line 245 and the caller's
sink is untouched, otherwise the token stream produced by the external
tokenizer is folded into the sink.  The result pairs the final sink
contents with the error, modelling the Rust `&mut Vec` plus
`Result<(), Error>` signature. -/
def links_from_read (doc : Document) (check_anchors get_paragraphs : Bool)
    (sink : List Link) (bytes : List Nat) (tokens : List HtmlToken) :
    List Link × Option String :=
  if validUtf8 bytes then
    (scanTokens doc check_anchors get_paragraphs sink tokens, none)
  else
    (sink, some "file contained invalid utf8")

/-- The tag-to-link-attribute table of the start-tag dispatch
(html.rs lines 302-314). -/
def linkAttrTable (name : String) : Option String :=
  if name = "a" then some "href"
  else if name = "img" then some "src"
  else if name = "link" then some "href"
  else if name = "script" then some "src"
  else if name = "iframe" then some "src"
  else if name = "area" then some "href"
  else if name = "object" then some "data"
  else none

/-- A concrete scanner state used by witnesses: one unfinished UsedLink
in the sink, an open paragraph starting at index zero, and some
accumulated paragraph text. -/
def sampleScanState : ScanState :=
  { sink := [Link.Uses { href := "u", path := [], paragraph := none }]
    last_paragraph_i := 0
    in_paragraph := true
    walker := { acc := ('h' :: 'i' :: []) } }

/-! ## Theorems -/

theorem lastIsSlash_cons (a : Char) (l : List Char) (h : l ≠ []) :
    lastIsSlash (a :: l) = lastIsSlash l := by
  cases l with
  | nil => exact absurd rfl h
  | cons b t => rfl

theorem hasDS_append (xs ys : List Char) :
    hasDS (xs ++ ys) = (hasDS xs || hasDS ys || (lastIsSlash xs && firstIsSlash ys)) := by
  induction xs with
  | nil => simp [hasDS, lastIsSlash]
  | cons a tail ih =>
    cases tail with
    | nil =>
      cases ys with
      | nil => simp [hasDS, lastIsSlash, firstIsSlash]
      | cons b ys2 =>
        show hasDS (a :: b :: ys2) = _
        simp only [hasDS, lastIsSlash, firstIsSlash]
        cases hda : decide (a = '/') <;> cases hdb : decide (b = '/') <;> simp
    | cons b tail2 =>
      show hasDS (a :: b :: (tail2 ++ ys)) = _
      have h1 : hasDS (a :: b :: (tail2 ++ ys))
          = ((decide (a = '/') && decide (b = '/')) || hasDS (b :: (tail2 ++ ys))) := rfl
      have h2 : (b :: (tail2 ++ ys)) = (b :: tail2) ++ ys := rfl
      rw [h1, h2, ih]
      have h3 : hasDS (a :: b :: tail2)
          = ((decide (a = '/') && decide (b = '/')) || hasDS (b :: tail2)) := rfl
      have h4 : lastIsSlash (a :: b :: tail2) = lastIsSlash (b :: tail2) := rfl
      rw [h3, h4, Bool.or_assoc, Bool.or_assoc, Bool.or_assoc]

theorem lastIsSlash_append (xs ys : List Char) (h : ys ≠ []) :
    lastIsSlash (xs ++ ys) = lastIsSlash ys := by
  induction xs with
  | nil => rfl
  | cons a tail ih =>
    have htail : tail ++ ys ≠ [] := by
      intro hc
      exact h (List.append_eq_nil.mp hc).2
    calc lastIsSlash ((a :: tail) ++ ys) = lastIsSlash (a :: (tail ++ ys)) := rfl
      _ = lastIsSlash (tail ++ ys) := lastIsSlash_cons a _ htail
      _ = lastIsSlash ys := ih

theorem hasDS_eq_false_of_no_slash (c : List Char) (h : '/' ∉ c) : hasDS c = false := by
  induction c with
  | nil => rfl
  | cons a tail ih =>
    cases tail with
    | nil => rfl
    | cons b t2 =>
      show ((decide (a = '/') && decide (b = '/')) || hasDS (b :: t2)) = false
      have ha : a ≠ '/' := fun hc => h (by simp [hc])
      have : '/' ∉ b :: t2 := fun hc => h (List.mem_cons_of_mem a hc)
      simp [ih this, ha]

theorem lastIsSlash_eq_false_of_no_slash (c : List Char) (h : '/' ∉ c) :
    lastIsSlash c = false := by
  induction c with
  | nil => rfl
  | cons a tail ih =>
    cases tail with
    | nil =>
      have ha : a ≠ '/' := fun hc => h (by simp [hc])
      simp [lastIsSlash, ha]
    | cons b t2 =>
      have : '/' ∉ b :: t2 := fun hc => h (List.mem_cons_of_mem a hc)
      exact ih this

theorem startsWithDDS_append_left (xs ys : List Char) (h : startsWithDDS xs = true) :
    startsWithDDS (xs ++ ys) = true := by
  match xs with
  | a :: b :: c :: t =>
    show startsWithDDS (a :: b :: c :: (t ++ ys)) = true
    simpa [startsWithDDS] using h
  | [] => simp [startsWithDDS] at h
  | [a] => simp [startsWithDDS] at h
  | [a, b] => simp [startsWithDDS] at h

theorem startsWithDDS_no_slash (c : List Char) (h : '/' ∉ c) : startsWithDDS c = false := by
  match c with
  | [] => rfl
  | [a] => rfl
  | [a, b] => rfl
  | a :: b :: d :: t =>
    have hd : d ≠ '/' := by
      intro hc
      exact h (by simp [hc])
    simp [startsWithDDS, hd]

theorem dropWhile_head_false (p : Char → Bool) (l : List Char) (x : Char) (d : List Char)
    (h : l.dropWhile p = x :: d) : p x = false := by
  induction l with
  | nil => simp [List.dropWhile] at h
  | cons a t ih =>
    rw [List.dropWhile_cons] at h
    by_cases hp : p a
    · rw [if_pos hp] at h
      exact ih h
    · rw [if_neg hp] at h
      cases h
      exact Bool.of_not_eq_true hp

/-- Structure of `truncToLastSlash`: either the result is empty, or the
input is the result followed by a slash and a remainder. -/
theorem truncToLastSlash_structure (s : List Char) :
    truncToLastSlash s = [] ∨ ∃ u, s = truncToLastSlash s ++ '/' :: u := by
  unfold truncToLastSlash
  cases hd : s.reverse.dropWhile (fun c => !decide (c = '/')) with
  | nil => left; rfl
  | cons x d =>
    right
    have hx : (fun c => !decide (c = '/')) x = false := dropWhile_head_false _ _ _ _ hd
    have hx2 : x = '/' := by simpa using hx
    refine ⟨(s.reverse.takeWhile (fun c => !decide (c = '/'))).reverse, ?_⟩
    have key : s.reverse = s.reverse.takeWhile (fun c => !decide (c = '/')) ++ (x :: d) := by
      rw [← hd]
      exact (List.takeWhile_append_dropWhile _ _).symm
    have hs : s = (s.reverse.takeWhile (fun c => !decide (c = '/')) ++ (x :: d)).reverse := by
      rw [← key, List.reverse_reverse]
    conv_lhs => rw [hs]
    rw [hx2]
    simp [List.reverse_append, List.drop]

theorem canonInv_nil : CanonInv [] := by
  refine ⟨rfl, rfl, ?_, rfl⟩
  intro h
  cases h

theorem startsWithDDS_of_append_structure (t u : List Char)
    (h : startsWithDDS (t ++ '/' :: u) = false) : startsWithDDS t = false := by
  by_contra hc
  have := startsWithDDS_append_left t ('/' :: u) (Bool.of_not_eq_false hc)
  rw [this] at h
  cases h

theorem canonInv_trunc (s : List Char) (h1 : hasDS s = false)
    (h2 : startsWithDDS s = false) : CanonInv (truncToLastSlash s) := by
  rcases truncToLastSlash_structure s with he | ⟨u, hu⟩
  · rw [he]; exact canonInv_nil
  · set t := truncToLastSlash s with ht
    rw [hu, hasDS_append] at h1
    have hds : hasDS t = false := by
      cases hv : hasDS t
      · rfl
      · rw [hv] at h1; simp at h1
    have hlast : lastIsSlash t = false := by
      cases hv : lastIsSlash t
      · rfl
      · rw [hv] at h1
        simp [firstIsSlash] at h1
    have hswd : startsWithDDS t = false := by
      rw [hu] at h2
      exact startsWithDDS_of_append_structure t u h2
    refine ⟨hds, hswd, ?_, hlast⟩
    intro hdd
    rw [hu, hdd] at h2
    simp [startsWithDDS] at h2

theorem canonInv_push (s c : List Char) (hInv : CanonInv s) (hc0 : c ≠ [])
    (hc2 : c ≠ ['.', '.']) (hcs : '/' ∉ c) :
    CanonInv (if s = [] then c else s ++ '/' :: c) := by
  obtain ⟨hds, hswd, hne, hlast⟩ := hInv
  by_cases hs : s = []
  · rw [if_pos hs]
    exact ⟨hasDS_eq_false_of_no_slash c hcs, startsWithDDS_no_slash c hcs, hc2,
      lastIsSlash_eq_false_of_no_slash c hcs⟩
  · rw [if_neg hs]
    have hslashc : hasDS ('/' :: c) = false := by
      cases c with
      | nil => rfl
      | cons e c2 =>
        have he : e ≠ '/' := by
          intro hcc
          exact hcs (by simp [hcc])
        show ((decide (('/' : Char) = '/') && decide (e = '/')) || hasDS (e :: c2)) = false
        simp [he, hasDS_eq_false_of_no_slash _ hcs]
    refine ⟨?_, ?_, ?_, ?_⟩
    · rw [hasDS_append, hds, hslashc, hlast]
      rfl
    · match s, hs with
      | [a], _ =>
        cases c with
        | nil => exact absurd rfl hc0
        | cons e c2 =>
          show startsWithDDS (a :: '/' :: e :: c2) = false
          simp [startsWithDDS]
      | [a, b], _ =>
        show startsWithDDS (a :: b :: '/' :: c) = false
        simp only [startsWithDDS, Bool.and_eq_false_iff]
        by_cases hab : a = '.' ∧ b = '.'
        · exact absurd (by rw [hab.1, hab.2]) hne
        · rcases not_and_or.mp hab with hna | hnb
          · left; left; simpa using hna
          · left; right; simpa using hnb
      | a :: b :: d :: t, _ =>
        show startsWithDDS (a :: b :: d :: (t ++ '/' :: c)) = false
        simpa [startsWithDDS] using hswd
    · intro hcontra
      have : ('/' : Char) ∈ s ++ '/' :: c := by simp
      rw [hcontra] at this
      simp at this
    · rw [lastIsSlash_append s ('/' :: c) (by simp)]
      cases c with
      | nil => exact absurd rfl hc0
      | cons e c2 =>
        rw [lastIsSlash_cons '/' (e :: c2) (by simp)]
        exact lastIsSlash_eq_false_of_no_slash _ hcs

theorem pushComponents_inv (cs : List (List Char)) (s : List Char)
    (hInv : CanonInv s) (hcs : ∀ c ∈ cs, '/' ∉ c) :
    CanonInv (pushComponents s cs) := by
  induction cs generalizing s with
  | nil => exact hInv
  | cons c cs2 ih =>
    show CanonInv (pushComponents _ cs2)
    have hmem : '/' ∉ c := hcs c (List.mem_cons_self c cs2)
    have hrest : ∀ d ∈ cs2, '/' ∉ d := fun d hd => hcs d (List.mem_cons_of_mem c hd)
    by_cases h1 : c = [] ∨ c = ['.']
    · rw [if_pos h1]
      exact ih s hInv hrest
    · rw [if_neg h1]
      by_cases h2 : c = ['.', '.']
      · rw [if_pos h2]
        exact ih _ (canonInv_trunc s hInv.1 hInv.2.1) hrest
      · rw [if_neg h2]
        have hc0 : c ≠ [] := fun hcc => h1 (Or.inl hcc)
        have := canonInv_push s c hInv hc0 h2 hmem
        by_cases hs : s = []
        · rw [if_pos hs] at this ⊢
          exact ih _ this hrest
        · rw [if_neg hs] at this ⊢
          exact ih _ this hrest

theorem splitSlash_ne_nil (s : List Char) : splitSlash s ≠ [] := by
  cases s with
  | nil => simp [splitSlash]
  | cons c rest =>
    unfold splitSlash
    by_cases hc : c = '/'
    · simp [hc]
    · rw [if_neg hc]
      cases splitSlash rest <;> simp

theorem splitSlash_no_slash (s : List Char) : ∀ c ∈ splitSlash s, '/' ∉ c := by
  induction s with
  | nil =>
    intro c hc
    simp [splitSlash] at hc
    simp [hc]
  | cons a rest ih =>
    intro c hc
    unfold splitSlash at hc
    by_cases ha : a = '/'
    · rw [if_pos ha] at hc
      rcases List.mem_cons.mp hc with h | h
      · simp [h]
      · exact ih c h
    · rw [if_neg ha] at hc
      cases hsp : splitSlash rest with
      | nil => exact absurd hsp (splitSlash_ne_nil rest)
      | cons s0 ss =>
        rw [hsp] at hc
        rcases List.mem_cons.mp hc with h | h
        · subst h
          intro hmem
          rcases List.mem_cons.mp hmem with h2 | h2
          · exact ha h2.symm
          · exact ih s0 (by rw [hsp]; exact List.mem_cons_self s0 ss) h2
        · exact ih c (by rw [hsp]; exact List.mem_cons_of_mem s0 h)

/-- Claim C1 (amended): for every base that contains no double slash and
does not begin with dot-dot-slash, and every relative path whose
slash-separated segments are drawn from the allowed set, the result of
`push_and_canonicalize` contains no double slash and does not begin with
dot-dot-slash. -/
theorem canonicalize_no_double_slash (B R : List Char)
    (h1 : hasDS B = false) (h2 : startsWithDDS B = false)
    (_h3 : ∀ c ∈ splitSlash R, goodSeg c) :
    hasDS (push_and_canonicalize B R) = false ∧
      startsWithDDS (push_and_canonicalize B R) = false := by
  unfold push_and_canonicalize
  by_cases hfs : firstIsSlash R = true
  · rw [if_pos hfs]
    have := pushComponents_inv (splitSlash R) [] canonInv_nil (splitSlash_no_slash R)
    exact ⟨this.1, this.2.1⟩
  · rw [if_neg hfs]
    by_cases hR : R = []
    · rw [if_pos hR]
      by_cases hls : lastIsSlash B = true
      · rw [if_pos hls]
        have hBne : B ≠ [] := by
          intro hc
          rw [hc] at hls
          cases hls
        have hstruct : B.dropLast ++ [B.getLast hBne] = B := List.dropLast_append_getLast hBne
        constructor
        · rw [← hstruct, hasDS_append] at h1
          cases hv : hasDS B.dropLast
          · rfl
          · rw [hv] at h1; simp at h1
        · by_contra hc
          have := startsWithDDS_append_left B.dropLast [B.getLast hBne]
            (Bool.of_not_eq_false hc)
          rw [hstruct] at this
          rw [this] at h2
          cases h2
      · rw [if_neg hls]
        exact ⟨h1, h2⟩
    · rw [if_neg hR]
      have := pushComponents_inv (splitSlash R) (truncToLastSlash B)
        (canonInv_trunc B h1 h2) (splitSlash_no_slash R)
      exact ⟨this.1, this.2.1⟩

/-- Witness for `canonicalize_no_double_slash` at a concrete input. -/
theorem canonicalize_no_double_slash_witness :
    hasDS (push_and_canonicalize ('2' :: '0' :: '1' :: '9' :: '/' :: [])
        ('.' :: '.' :: '/' :: 'f' :: 'e' :: 'e' :: 'd' :: [])) = false ∧
      startsWithDDS (push_and_canonicalize ('2' :: '0' :: '1' :: '9' :: '/' :: [])
        ('.' :: '.' :: '/' :: 'f' :: 'e' :: 'e' :: 'd' :: [])) = false :=
  canonicalize_no_double_slash _ _ (by decide) (by decide) (by decide)

/-- Claim C1 as stated is false: the base is universally quantified, and
for the base containing a double slash the canonicalized result keeps a
double slash even though every segment of the relative path is
alphanumeric. -/
theorem canonicalize_double_slash_counterexample :
    (∀ c ∈ splitSlash ('x' :: []), goodSeg c) ∧
      hasDS (push_and_canonicalize ('a' :: '/' :: '/' :: 'b' :: []) ('x' :: [])) = true := by
  constructor
  · decide
  · decide

/-- Claim C9: an empty relative path is a same-document self-reference:
a trailing slash of the base is dropped and nothing else changes; the
five concrete examples from the specification evaluate as stated. -/
theorem canonicalize_empty_path :
    (∀ B : List Char, push_and_canonicalize B []
        = (if lastIsSlash B then B.dropLast else B)) ∧
      canonicalize "2019/" "../feed.xml" = "feed.xml" ∧
      canonicalize "contact.html" "contact.html" = "contact.html" ∧
      canonicalize "" "./2014/article.html" = "2014/article.html" ∧
      canonicalize "./foo/install.html" "" = "./foo/install.html" ∧
      canonicalize "./foo/" "" = "./foo" := by
  refine ⟨?_, by decide, by decide, by decide, by decide, by decide⟩
  intro B
  rfl

/-- Claim C2 (amended): when the file path is not rooted under the base
path, `Document::new` panics through `expect` with the message
`base_path is not a base of path`; the failure is a panic, not an error
value returned to the caller. -/
theorem document_new_panics (base_path path : List String)
    (h : stripPrefixComponents base_path path = none) :
    Document.new base_path path = NewResult.panicked "base_path is not a base of path" := by
  unfold Document.new
  rw [h]

/-- Witness for `document_new_panics` at a concrete unrooted path. -/
theorem document_new_panics_witness :
    Document.new ["public"] ["elsewhere", "file.html"]
      = NewResult.panicked "base_path is not a base of path" :=
  document_new_panics ["public"] ["elsewhere", "file.html"] (by decide)

/-- Claim C2 as stated is false at a concrete input: for a file path not
rooted under the site root, `Document::new` does not surface a returned
error; its outcome is the panic raised by `expect` on `strip_prefix`
(there is no error-return channel in the constructor at all). -/
theorem document_new_no_error_counterexample :
    (stripPrefixComponents ["public"] ["other", "doc.html"] = none) ∧
      Document.new ["public"] ["other", "doc.html"]
        = NewResult.panicked "base_path is not a base of path" := by
  constructor
  · decide
  · decide

/-- Claim C5: `Document::new` derives the href from the path relative to
the root; when the final component is an index filename the href is the
parent directory's relative path (components joined with slashes) and
`is_index_html` is true, otherwise the href is the full relative path and
`is_index_html` is false. -/
theorem document_new_href_derivation (base_path path rel : List String)
    (h : stripPrefixComponents base_path path = some rel) :
    Document.new base_path path
      = NewResult.ok
          { path := path
            href := joinComponents (if isIndexComp rel then parentOr rel else rel)
            is_index_html := isIndexComp rel } := by
  unfold Document.new
  rw [h]

/-- Witness for `document_new_href_derivation`: the two concrete
documents of the specification. -/
theorem document_new_href_derivation_witness :
    (Document.new ["public"] ["public", "platforms", "python", "troubleshooting", "index.html"]
        = NewResult.ok
            { path := ["public", "platforms", "python", "troubleshooting", "index.html"]
              href := "platforms/python/troubleshooting"
              is_index_html := true }) ∧
      Document.new ["public"] ["public", "platforms", "python", "troubleshooting.html"]
        = NewResult.ok
            { path := ["public", "platforms", "python", "troubleshooting.html"]
              href := "platforms/python/troubleshooting.html"
              is_index_html := false } := by
  constructor
  · exact (document_new_href_derivation ["public"] _
      ["platforms", "python", "troubleshooting", "index.html"] (by decide)).trans (by decide)
  · exact (document_new_href_derivation ["public"] _
      ["platforms", "python", "troubleshooting.html"] (by decide)).trans (by decide)

/-- Claim C4: `join` canonicalizes exactly the portion of the reference
before the first question mark or hash against the document href (with a
trailing slash first for an index document) and appends the suffix from
the first hash exactly when `preserve_anchor` is set and that suffix is
longer than the bare hash; the four concrete examples of the
specification evaluate as stated. -/
theorem document_join_anchors :
    (∀ (d : Document) (p : Bool) (rel : List Char),
        d.join p rel
          = push_and_canonicalize
              (d.href.data ++ (if d.is_index_html then ['/'] else []))
              (rel.take (rel.findIdx (fun c => decide (c = '?') || decide (c = '#'))))
            ++ (if p
                  && decide
                    (1 < (rel.drop (rel.findIdx (fun c => decide (c = '#')))).length)
                then rel.drop (rel.findIdx (fun c => decide (c = '#')))
                else [])) ∧
      Document.new ["public"]
          ["public", "platforms", "python", "troubleshooting", "index.html"]
        = NewResult.ok troubleshootingIndexDoc ∧
      troubleshootingIndexDoc.joinStr false "../../ruby#foo" = "platforms/ruby" ∧
      troubleshootingIndexDoc.joinStr true "../../ruby#foo" = "platforms/ruby#foo" ∧
      troubleshootingIndexDoc.joinStr true "../../ruby?bar=1#foo" = "platforms/ruby#foo" ∧
      troubleshootingIndexDoc.joinStr false "/platforms/ruby" = "platforms/ruby" := by
  refine ⟨?_, by decide, by decide, by decide, by decide, by decide⟩
  intro d p rel
  unfold Document.join
  cases p with
  | false => simp
  | true =>
    simp only [Bool.true_and, decide_eq_true_eq, List.length_drop, gt_iff_lt]
    by_cases hcond : 1 < rel.length - List.findIdx (fun c => decide (c = '#')) rel
    · rw [if_pos hcond, if_pos hcond]
      simp
    · rw [if_neg hcond, if_neg hcond, List.append_nil]
      simp

/-- Claim C10 (amended): when the first hash of the reference occurs
before any question mark (the two search positions coincide) and the
suffix from that hash is longer than the bare hash, `join` with
`preserve_anchor` appends that entire suffix, question mark included. -/
theorem document_join_hash_before_query (d : Document) (rel : List Char)
    (h1 : rel.findIdx (fun c => decide (c = '?') || decide (c = '#'))
        = rel.findIdx (fun c => decide (c = '#')))
    (h2 : 1 < (rel.drop (rel.findIdx (fun c => decide (c = '#')))).length) :
    d.join true rel
      = push_and_canonicalize
          (d.href.data ++ (if d.is_index_html then ['/'] else []))
          (rel.take (rel.findIdx (fun c => decide (c = '#'))))
        ++ rel.drop (rel.findIdx (fun c => decide (c = '#'))) := by
  unfold Document.join
  rw [h1]
  simp only [List.length_drop] at h2
  simp [h2]

/-- Witness for `document_join_hash_before_query` at the reference
`page#frag?x=1`. -/
theorem document_join_hash_before_query_witness :
    troubleshootingIndexDoc.join true ("page#frag?x=1").data
      = push_and_canonicalize
          (troubleshootingIndexDoc.href.data
            ++ (if troubleshootingIndexDoc.is_index_html then ['/'] else []))
          (("page#frag?x=1").data.take
            (("page#frag?x=1").data.findIdx (fun c => decide (c = '#'))))
        ++ ("page#frag?x=1").data.drop
            (("page#frag?x=1").data.findIdx (fun c => decide (c = '#'))) :=
  document_join_hash_before_query troubleshootingIndexDoc ("page#frag?x=1").data
    (by decide) (by decide)

/-- Claim C10 as stated is false at a concrete input: for the reference
`page#`, whose first hash occurs before any question mark, `join` with
`preserve_anchor` does not append the suffix starting at the hash (the
suffix is the bare hash, which the code drops). -/
theorem document_join_bare_hash_counterexample :
    troubleshootingIndexDoc.joinStr true "page#"
        = "platforms/python/troubleshooting/page" ∧
      ¬ troubleshootingIndexDoc.joinStr true "page#"
          = "platforms/python/troubleshooting/page" ++ "#" := by
  constructor
  · decide
  · decide

/-- Claim C3: on a paragraph-bearing close tag with paragraph tracking
enabled and an open paragraph, the fingerprint from `finish_paragraph`
is back-filled onto every link appended since `last_paragraph_i`, where
back-filling sets the paragraph of a UsedLink and leaves a DefinedLink
unchanged; concretely, two anchor uses inside one paragraph element end
up with the same fingerprint, and a use outside any paragraph-bearing
element keeps an absent paragraph. -/
theorem paragraph_backfill :
    (∀ (doc : Document) (check_anchors : Bool) (st : ScanState) (name : String),
        PARAGRAPH_TAGS.contains name = true → st.in_paragraph = true →
        (processToken doc check_anchors true st (HtmlToken.endTag name)).sink
          = st.sink.take st.last_paragraph_i
            ++ (st.sink.drop st.last_paragraph_i).map
                (backfill st.walker.finish_paragraph.1)) ∧
      (∀ (fp : String) (d : DefinedLink), backfill fp (Link.Defines d) = Link.Defines d) ∧
      scanTokens troubleshootingIndexDoc false true []
          [HtmlToken.startTag "p" [], HtmlToken.chars "hello",
            HtmlToken.startTag "a" [("href", "x")],
            HtmlToken.startTag "a" [("href", "y")],
            HtmlToken.endTag "p"]
        = [Link.Uses
            { href := "platforms/python/troubleshooting/x"
              path := troubleshootingIndexDoc.path
              paragraph := some "hello" },
          Link.Uses
            { href := "platforms/python/troubleshooting/y"
              path := troubleshootingIndexDoc.path
              paragraph := some "hello" }] ∧
      scanTokens troubleshootingIndexDoc false true []
          [HtmlToken.startTag "a" [("href", "z")]]
        = [Link.Uses
            { href := "platforms/python/troubleshooting/z"
              path := troubleshootingIndexDoc.path
              paragraph := none }] := by
  refine ⟨?_, fun fp d => rfl, by decide, by decide⟩
  intro doc ca st name h1 h2
  unfold processToken
  simp only [h1, h2, Bool.true_and]
  rfl

/-- Witness for the first clause of `paragraph_backfill` at a concrete
state. -/
theorem paragraph_backfill_witness :
    (processToken troubleshootingIndexDoc false true sampleScanState
        (HtmlToken.endTag "p")).sink
      = sampleScanState.sink.take sampleScanState.last_paragraph_i
        ++ (sampleScanState.sink.drop sampleScanState.last_paragraph_i).map
            (backfill sampleScanState.walker.finish_paragraph.1) :=
  paragraph_backfill.1 troubleshootingIndexDoc false sampleScanState "p" (by decide) rfl

/-- Claim C6: an attribute whose value starts with an excluded scheme
contributes no UsedLink: filtering such attributes away first does not
change the extraction result; concretely a mailto or https anchor href
produces an empty link list. -/
theorem bad_schema_filtering :
    (∀ (doc : Document) (check_anchors : Bool) (attr_name : String)
        (attrs : List (String × String)),
        extract_used_link doc check_anchors attr_name
            (attrs.filter
              (fun a => !BAD_SCHEMAS.any (fun schema => startsWithStr a.2 schema)))
          = extract_used_link doc check_anchors attr_name attrs) ∧
      scanTokens troubleshootingIndexDoc false false []
          [HtmlToken.startTag "a" [("href", "mailto:x@example.com")]] = [] ∧
      scanTokens troubleshootingIndexDoc false false []
          [HtmlToken.startTag "a" [("href", "https://example.com")]] = [] := by
  refine ⟨?_, by decide, by decide⟩
  intro doc ca an attrs
  induction attrs with
  | nil => rfl
  | cons a rest ih =>
    by_cases hbad : BAD_SCHEMAS.any (fun schema => startsWithStr a.2 schema) = true
    · have hall : BAD_SCHEMAS.all (fun schema => !startsWithStr a.2 schema) = false := by
        rcases List.any_eq_true.mp hbad with ⟨s, hs, hstart⟩
        refine List.all_eq_false.mpr ⟨s, hs, ?_⟩
        simp [hstart]
      have hfi : (a :: rest).filter
            (fun a => !BAD_SCHEMAS.any (fun schema => startsWithStr a.2 schema))
          = rest.filter
            (fun a => !BAD_SCHEMAS.any (fun schema => startsWithStr a.2 schema)) := by
        simp [List.filter_cons, hbad]
      rw [hfi, ih]
      show extract_used_link doc ca an rest = extract_used_link doc ca an (a :: rest)
      unfold extract_used_link
      rw [List.filterMap_cons]
      rw [hall]
      simp
    · have hfi : (a :: rest).filter
            (fun a => !BAD_SCHEMAS.any (fun schema => startsWithStr a.2 schema))
          = a :: rest.filter
            (fun a => !BAD_SCHEMAS.any (fun schema => startsWithStr a.2 schema)) := by
        simp [List.filter_cons, hbad]
      rw [hfi]
      show extract_used_link doc ca an (a :: _) = extract_used_link doc ca an (a :: rest)
      unfold extract_used_link
      rw [List.filterMap_cons, List.filterMap_cons]
      have ih2 := ih
      unfold extract_used_link at ih2
      rw [ih2]

/-- Claim C7: within one start tag, the links appended to the sink are,
in order, the UsedLinks of the tag's link attribute per the dispatch
table, then the DefinedLinks of an anchor tag's name attribute, then the
DefinedLinks of the id attribute. -/
theorem tag_emission_order (doc : Document) (check_anchors get_paragraphs : Bool)
    (st : ScanState) (name : String) (attrs : List (String × String)) :
    (processToken doc check_anchors get_paragraphs st (HtmlToken.startTag name attrs)).sink
      = st.sink
        ++ ((match linkAttrTable name with
              | some an => extract_used_link doc check_anchors an attrs
              | none => [])
          ++ ((if name = "a" then extract_anchor_def doc check_anchors "name" attrs else [])
            ++ extract_anchor_def doc check_anchors "id" attrs)) := by
  have hsink : (processToken doc check_anchors get_paragraphs st
        (HtmlToken.startTag name attrs)).sink
      = st.sink ++ tagLinks doc check_anchors name attrs := by
    unfold processToken
    by_cases hp : PARAGRAPH_TAGS.contains name = true
    · simp only [hp]
      rfl
    · have hp2 : PARAGRAPH_TAGS.contains name = false := Bool.of_not_eq_true hp
      simp only [hp2]
      rfl
  rw [hsink]
  unfold tagLinks linkAttrTable
  split_ifs with h1 h2 h3 h4 h5 h6 h7 <;> simp [List.append_assoc]

/-- Claim C8: a byte stream that is not valid UTF-8 makes
`links_from_read` return the encoding error, with the caller's sink
exactly as it was. -/
theorem invalid_utf8_aborts (doc : Document) (check_anchors get_paragraphs : Bool)
    (sink : List Link) (bytes : List Nat) (tokens : List HtmlToken)
    (h : validUtf8 bytes = false) :
    links_from_read doc check_anchors get_paragraphs sink bytes tokens
      = (sink, some "file contained invalid utf8") := by
  unfold links_from_read
  rw [h]
  simp

/-- Witness for `invalid_utf8_aborts` at the single-byte stream 255,
with a nonempty caller sink that the call leaves untouched. -/
theorem invalid_utf8_aborts_witness :
    links_from_read troubleshootingIndexDoc false false
        [Link.Defines { href := "kept" }] [255]
        [HtmlToken.startTag "a" [("href", "x")]]
      = ([Link.Defines { href := "kept" }], some "file contained invalid utf8") :=
  invalid_utf8_aborts troubleshootingIndexDoc false false
    [Link.Defines { href := "kept" }] [255]
    [HtmlToken.startTag "a" [("href", "x")]] (by decide)

end Hyperlink

